import Mathlib

/-!
Verification of the core executor and streaming adapters of the spin-rust-sdk
repository: the `run` event loop and waitable registry
(`crates/executor/src/lib.rs`) and the outgoing/incoming HTTP body adapters
(`src/http/executor.rs`), modelled as executable Lean functions.
-/

set_option autoImplicit false

namespace SpinExec

/-! ### Definitions: model of `crates/executor/src/lib.rs`

The global registry `WAKERS : Mutex<Vec<(Wrapped, Waker)>>` holds pairs of a
shared slot `Wrapped = Arc<Mutex<Option<Pollable>>>` and a waker.  We model a
registry entry as `Option P × W`: the slot content (`none` once cancelled)
together with the waker.  `P` stands for the opaque `Pollable` handles and `W`
for wakers.  -/

/-- One entry of the global `WAKERS` registry: the shared slot content
(`none` once cancelled) paired with the waker. -/
abbrev Entry (P W : Type) := Option P × W

/-- The live registrations of a registry: entries whose shared slot still
holds a pollable, with the pollable taken out of the slot.  This is the
`filter_map` step of `run`. -/
def liveOf {P W : Type} (registry : List (Entry P W)) : List (P × W) :=
  registry.filterMap (fun e => e.1.map (fun p => (p, e.2)))

/-- Observable events of one `run` loop iteration, in the order they are
performed. -/
inductive Ev (P W : Type) where
  | drain (entries : List (Entry P W))
  | query (pollables : List P)
  | invoke (w : W)
  | reinsert (p : P) (w : W)
  deriving DecidableEq

/-- The two ways the `Poll::Pending` branch of `run` can panic: the
`assert!(!wakers.is_empty())`, and `ready[index]` with an out-of-range index
from `io::poll::poll`. -/
inductive Panic where
  | emptyWakers
  | badIndex
  deriving DecidableEq

/-- The `for index in io::poll::poll(&pollables)` loop writing
`ready[index] = true`; `none` models the index-out-of-range panic. -/
def setReady (ready : List Bool) : List Nat → Option (List Bool)
  | [] => some ready
  | i :: rest =>
    if i < ready.length then setReady (ready.set i true) rest else none

/-- The readiness flags resulting from marking every index of `idx` in a
vector of `n` flags initially false. -/
def readyFlags (n : Nat) (idx : List Nat) : List Bool :=
  (List.range n).map (fun i => decide (i ∈ idx))

/-- Outcome of one `Poll::Pending` iteration of the `run` loop. -/
structure IterOut (P W : Type) where
  /-- The events performed, in order. -/
  trace : List (Ev P W)
  /-- The value of the global `WAKERS` after the final
  `*WAKERS.lock().unwrap() = new_wakers` assignment. -/
  registry : List (Entry P W)
  /-- The entries sitting in the global `WAKERS` just before that final
  assignment: everything pushed by `push_waker` during the wakes, which the
  assignment throws away. -/
  discarded : List (Entry P W)
  deriving DecidableEq

/-- The body of the `for (ready, (wrapped, pollable, waker)) in …` loop of
`run`: state is (global pushes so far, `new_wakers`, events so far). -/
def iterStep {P W : Type} (wakeFn : W → List (Entry P W))
    (st : List (Entry P W) × List (Entry P W) × List (Ev P W))
    (rw : Bool × P × W) :
    List (Entry P W) × List (Entry P W) × List (Ev P W) :=
  match rw with
  | (true, _, w) =>
    (st.1 ++ wakeFn w, st.2.1, st.2.2 ++ [Ev.invoke (P := P) w])
  | (false, p, w) =>
    (st.1, st.2.1 ++ [((some p, w) : Entry P W)], st.2.2 ++ [Ev.reinsert p w])

/-- One `Poll::Pending` iteration of the `run` loop, transcribed from
`crates/executor/src/lib.rs`:

* `mem::take(WAKERS…)` drains the whole registry, leaving it empty;
* the `filter_map` takes each slot's pollable and discards cancelled entries;
* `assert!(!wakers.is_empty())`;
* `io::poll::poll(&pollables)` is the single batched readiness query, whose
  result `pollRes pollables` is a list of ready indices;
* ready entries have their waker invoked (`wakeFn w` is the list of
  registrations that invoking `w` pushes onto the global registry);
* not-ready entries have their slot restored and are collected into
  `new_wakers`;
* finally `*WAKERS… = new_wakers` overwrites the registry. -/
def runIteration {P W : Type} (registry : List (Entry P W))
    (pollRes : List P → List Nat) (wakeFn : W → List (Entry P W)) :
    Except Panic (IterOut P W) :=
  let wakers := liveOf registry
  if wakers.isEmpty then .error .emptyWakers
  else
    let pollables := wakers.map Prod.fst
    match setReady (List.replicate wakers.length false) (pollRes pollables) with
    | none => .error .badIndex
    | some ready =>
      let proc := (ready.zip wakers).foldl (iterStep wakeFn) ([], [], [])
      .ok { trace := Ev.drain registry :: Ev.query pollables :: proc.2.2,
            registry := proc.2.1,
            discarded := proc.1 }

/-- Is an event the batched readiness query? -/
def isQueryEv {P W : Type} : Ev P W → Bool
  | .query _ => true
  | _ => false

/-- The waker of an `invoke` event. -/
def invokeOf {P W : Type} : Ev P W → Option W
  | .invoke w => some w
  | _ => none

/-- The wakers of the entries reported ready, in order. -/
def wokenOf {P W : Type} (flags : List Bool) (live : List (P × W)) : List W :=
  (flags.zip live).filterMap (fun rw => if rw.1 then some rw.2.2 else none)

/-- The not-ready entries, with their slot restored, in order: the
`new_wakers` list. -/
def keptOf {P W : Type} (flags : List Bool) (live : List (P × W)) :
    List (Entry P W) :=
  (flags.zip live).filterMap
    (fun rw => if rw.1 then none else some ((some rw.2.1, rw.2.2) : Entry P W))

/-- The interleaved invoke/reinsert events of the processing loop. -/
def procTrace {P W : Type} (flags : List Bool) (live : List (P × W)) :
    List (Ev P W) :=
  (flags.zip live).map
    (fun rw => if rw.1 then Ev.invoke rw.2.2 else Ev.reinsert rw.2.1 rw.2.2)

/-- The result of polling the root future once. -/
inductive FPoll (T : Type) where
  | pending
  | ready (t : T)
  deriving DecidableEq

/-- Why a (fuel-bounded) execution of the `run` loop stopped without a
result: fuel ran out, or a `Pending` iteration panicked. -/
inductive RunErr where
  | fuel
  | panic (p : Panic)
  deriving DecidableEq

/-- A completed `run`: the future's result, the number of polls performed,
and the registry contents at return. -/
structure RunOut (T P W : Type) where
  result : T
  polls : Nat
  registry : List (Entry P W)
  deriving DecidableEq

/-- The `run` loop of `crates/executor/src/lib.rs`, fuel-bounded.  The root
future is modelled by `poll : Nat → FPoll T × List (Entry P W)`: the result
of its n-th poll together with the registrations that poll pushes onto the
global `WAKERS` (via `push_waker` or `push_waker_and_get_token` from inside
sub-futures).  `n` counts polls performed so far and `registry` is the
current `WAKERS` content. -/
def runFuel {T P W : Type} (poll : Nat → FPoll T × List (Entry P W))
    (pollRes : List P → List Nat) (wakeFn : W → List (Entry P W)) :
    Nat → Nat → List (Entry P W) → Except RunErr (RunOut T P W)
  | 0, _, _ => .error .fuel
  | fuel+1, n, registry =>
    let pr := poll n
    match pr.1 with
    | .ready t => .ok ⟨t, n + 1, registry ++ pr.2⟩
    | .pending =>
      match runIteration (registry ++ pr.2) pollRes wakeFn with
      | .error p => .error (.panic p)
      | .ok out => runFuel poll pollRes wakeFn fuel (n + 1) out.registry

/-! ### Definitions: cancellation (`CancelToken`, `CancelOnDropToken`)

The shared slots `Wrapped = Arc<Mutex<Option<Pollable>>>` are modelled as a
heap `Nat → Option P` indexed by slot identity. -/

/-- The `self.0.lock().unwrap().take()` performed by `CancelToken::cancel`
and by `CancelOnDropToken::drop`: empties the slot and returns the pollable
that gets dropped (released), if any. -/
def slotTake {P : Type} (slots : Nat → Option P) (i : Nat) :
    (Nat → Option P) × Option P :=
  (fun j => if j = i then none else slots j, slots i)

/-- `CancelToken(Wrapped)`: a handle to a shared slot. -/
structure CancelToken where
  slot : Nat

/-- `CancelToken::cancel`: `drop(self.0.lock().unwrap().take())`. -/
def CancelToken.cancel {P : Type} (t : CancelToken) (slots : Nat → Option P) :
    (Nat → Option P) × Option P :=
  slotTake slots t.slot

/-- `CancelOnDropToken(Wrapped)`, obtained from a `CancelToken` over the same
slot (the `From` impl copies the `Wrapped` handle). -/
structure CancelOnDropToken where
  slot : Nat

/-- `impl Drop for CancelOnDropToken`:
`drop(self.0.lock().unwrap().take())`. -/
def CancelOnDropToken.dropRun {P : Type} (t : CancelOnDropToken)
    (slots : Nat → Option P) : (Nat → Option P) × Option P :=
  slotTake slots t.slot

/-! ### Definitions: model of `outgoing_body` (`src/http/executor.rs`)

The host output stream is scripted: the i-th `check-write`, `write` and
`flush` calls answer according to `HostWriter`.  Bytes are `Nat`, the payload
of `last-operation-failed` is an opaque `E`. -/

/-- `wasi:io/streams.stream-error` as seen by the adapters. -/
inductive StreamErr (E : Type) where
  | closed
  | lastOperationFailed (e : E)
  deriving DecidableEq

/-- Result of one `check-write` call on the host output stream. -/
inductive CheckRes (E : Type) where
  | cap (n : Nat)
  | err (e : StreamErr E)
  deriving DecidableEq

/-- Scripted behaviour of the host output stream: results of the i-th
`check-write`, i-th `write` and i-th `flush` calls (`none` = success). -/
structure HostWriter (E : Type) where
  check : Nat → CheckRes E
  writeErr : Nat → Option (StreamErr E)
  flushErr : Nat → Option (StreamErr E)

/-- The capacity the i-th `check-write` reports (0 when it errors). -/
def capsOf {E : Type} (H : HostWriter E) (i : Nat) : Nat :=
  match H.check i with
  | .cap n => n
  | .err _ => 0

/-- Cumulative interaction log between `outgoing_body` and the host: how many
`check-write`, `write` and `flush` calls were made, all bytes the host
accepted (in order), and the list of accepted write payloads. -/
structure WriterLog where
  checks : Nat
  writes : Nat
  flushes : Nat
  accepted : List Nat
  writesLog : List (List Nat)
  deriving DecidableEq

/-- Outcome of one invocation of the `poll_fn` closure for a chunk:
`pending` = registered the stream's waitable and returned `Poll::Pending`;
`done none` = `Poll::Ready(Ok(()))`; `done (some e)` = `Poll::Ready(Err e)`. -/
inductive ChunkStep (E : Type) where
  | pending
  | done (r : Option (StreamErr E))
  deriving DecidableEq

/-- The `loop { match stream.check_write() … }` of `outgoing_body`,
transcribed from `src/http/executor.rs`.  `offset` and `flushing` are the
closure-captured per-chunk state; `fuel` bounds the (unbounded) Rust loop:

* `Ok(0)`: register the stream's waitable, return `Poll::Pending`;
* `Ok(count)`, offset at chunk end: if already flushing, `Ready(Ok)`;
  otherwise flush — success sets `flushing` and loops, `Closed` is
  `Ready(Ok)`, any other error is `Ready(Err)`;
* `Ok(count)`, bytes remaining: write `min(count, chunk.len - offset)` bytes
  from `offset`, advance `offset`, loop; a write error is `Ready(Err)`;
* `Err(Closed)` with offset at chunk end: `Ready(Ok)`;
* any other error: `Ready(Err)`. -/
def chunkLoop {E : Type} (H : HostWriter E) (chunk : List Nat) :
    Nat → WriterLog → Nat → Bool →
    Option (ChunkStep E × WriterLog × Nat × Bool)
  | 0, _, _, _ => none
  | fuel+1, log, offset, flushing =>
    let r := H.check log.checks
    let log1 := { log with checks := log.checks + 1 }
    match r with
    | .cap 0 => some (.pending, log1, offset, flushing)
    | .cap (c+1) =>
      if offset = chunk.length then
        if flushing then some (.done none, log1, offset, flushing)
        else
          match H.flushErr log1.flushes with
          | none =>
            chunkLoop H chunk fuel { log1 with flushes := log1.flushes + 1 }
              offset true
          | some .closed =>
            some (.done none, { log1 with flushes := log1.flushes + 1 },
              offset, flushing)
          | some e =>
            some (.done (some e), { log1 with flushes := log1.flushes + 1 },
              offset, flushing)
      else
        let n := min (c+1) (chunk.length - offset)
        let bytes := (chunk.drop offset).take n
        match H.writeErr log1.writes with
        | none =>
          chunkLoop H chunk fuel
            { log1 with writes := log1.writes + 1,
                        accepted := log1.accepted ++ bytes,
                        writesLog := log1.writesLog ++ [bytes] }
            (offset + n) flushing
        | some e =>
          some (.done (some e), { log1 with writes := log1.writes + 1 },
            offset, flushing)
    | .err .closed =>
      if offset = chunk.length then some (.done none, log1, offset, flushing)
      else some (.done (some .closed), log1, offset, flushing)
    | .err (.lastOperationFailed e) =>
      some (.done (some (.lastOperationFailed e)), log1, offset, flushing)

/-- Driving one chunk to completion: re-poll (as the executor does after a
wake) until the chunk's `poll_fn` resolves.  `pf` bounds the number of
polls, `lf` the inner loop. -/
def sendChunk {E : Type} (H : HostWriter E) (chunk : List Nat) :
    Nat → Nat → WriterLog → Nat → Bool →
    Option (Option (StreamErr E) × WriterLog)
  | 0, _, _, _, _ => none
  | pf+1, lf, log, offset, flushing =>
    match chunkLoop H chunk lf log offset flushing with
    | none => none
    | some (.done r, log1, _, _) => some (r, log1)
    | some (.pending, log1, offset1, flushing1) =>
      sendChunk H chunk pf lf log1 offset1 flushing1

/-- The `sink::unfold` discipline: chunks are fed one at a time, each fully
resolved before the next begins; the first chunk error stops the sink. -/
def sendAll {E : Type} (H : HostWriter E) (pf lf : Nat) :
    List (List Nat) → WriterLog → Option (Option (StreamErr E) × WriterLog)
  | [], log => some (none, log)
  | chunk :: rest, log =>
    match sendChunk H chunk pf lf log 0 false with
    | none => none
    | some (some e, log1) => some (some e, log1)
    | some (none, log1) => sendAll H pf lf rest log1

/-- Modelled from the spec: the per-chunk write discipline of §4.2,
"Capacity > 0 ⇒ write `min(capacity, remaining bytes in chunk)`; advance
offset", as a relation between the capacities reported from check index `i`
on, the current offset, and the list of write payloads produced. -/
inductive SpecWrites (caps : Nat → Nat) (chunk : List Nat) :
    Nat → Nat → List (List Nat) → Prop where
  | done (i : Nat) : SpecWrites caps chunk i chunk.length []
  | step (i offset : Nat) (ws : List (List Nat)) :
      offset < chunk.length →
      SpecWrites caps chunk (i + 1)
        (offset + min (caps i) (chunk.length - offset)) ws →
      SpecWrites caps chunk i offset
        ((chunk.drop offset).take (min (caps i) (chunk.length - offset)) :: ws)

/-! ### Definitions: teardown (`Drop` impls of `Outgoing` and `Incoming`) -/

/-- Teardown events of the adapters' `Drop` impls, in the order performed. -/
inductive TdEv (P : Type) where
  | cancel (p : P)
  | dropStream
  | finishOutgoing (trailers : Option Unit)
  | finishIncoming
  deriving DecidableEq

/-- State of the `Outgoing` struct of `outgoing_body` at drop time: the
resource pair and the optional cancel token, the token carrying its shared
slot content (`some none` = token held but slot already emptied). -/
structure OutgoingSt (P S B : Type) where
  stream_and_body : Option (S × B)
  cancel_token : Option (Option P)

/-- The effect of `drop(self.cancel_token.take())`: dropping a held
`CancelOnDropToken` whose slot is still full releases that pollable;
otherwise nothing happens. -/
def cancelPart {P : Type} (ct : Option (Option P)) : List (TdEv P) :=
  match ct with
  | some (some p) => [TdEv.cancel p]
  | _ => []

/-- `impl Drop for Outgoing`: `drop(self.cancel_token.take())` first —
releasing the registered pollable if the slot is still full — then, if the
resource pair is held, drop the stream and call
`OutgoingBody::finish(body, None)` (end-of-body, no trailers). -/
def outgoingDrop {P S B : Type} (st : OutgoingSt P S B) : List (TdEv P) :=
  cancelPart st.cancel_token ++
  (match st.stream_and_body with
   | some _ => [TdEv.dropStream, TdEv.finishOutgoing none]
   | none => [])

/-- State of the `Incoming` struct of `incoming_body` at drop time. -/
structure IncomingSt (P S B : Type) where
  stream_and_body : Option (S × B)
  cancel_token : Option (Option P)

/-- `impl Drop for Incoming`: `drop(self.cancel_token.take())` first, then,
if the resource pair is held, drop the stream and
`IncomingBody::finish(body)`. -/
def incomingDrop {P S B : Type} (st : IncomingSt P S B) : List (TdEv P) :=
  cancelPart st.cancel_token ++
  (match st.stream_and_body with
   | some _ => [TdEv.dropStream, TdEv.finishIncoming]
   | none => [])

/-! ### Definitions: model of `incoming_body` (`src/http/executor.rs`) -/

/-- Result of one `stream.read(READ_SIZE)` call on the host input stream. -/
inductive ReadRes (E : Type) where
  | bytes (b : List Nat)
  | closed
  | failed (e : E)
  deriving DecidableEq

/-- State of the `Incoming` struct across polls of the stream closure:
whether the resource pair is still held, whether a registration is
outstanding, and how many reads were issued (indexing the host script). -/
structure IncomingPollSt where
  alive : Bool
  registered : Bool
  readIdx : Nat
  deriving DecidableEq

/-- One item of the stream as seen by the consumer: `pending` =
`Poll::Pending`, `chunk b` = `Ready(Some(Ok b))`, `terminal` =
`Ready(None)`, `errItem e` = `Ready(Some(Err e))`. -/
inductive PullRes (E : Type) where
  | pending
  | chunk (b : List Nat)
  | terminal
  | errItem (e : E)
  deriving DecidableEq

/-- One invocation of the `stream::poll_fn` closure of `incoming_body`,
transcribed from `src/http/executor.rs`: if the resource pair is held, read;
an empty buffer registers the stream's waitable and suspends, a non-empty
buffer is yielded, `Closed` yields `None` (the pair is not taken), and
`LastOperationFailed` yields `Some(Err e)`; if the pair is gone, `None`. -/
def incomingPoll {E : Type} (reads : Nat → ReadRes E) (st : IncomingPollSt) :
    PullRes E × IncomingPollSt :=
  if st.alive then
    match reads st.readIdx with
    | .bytes b =>
      if b.isEmpty then
        (.pending, { st with registered := true, readIdx := st.readIdx + 1 })
      else (.chunk b, { st with readIdx := st.readIdx + 1 })
    | .closed => (.terminal, { st with readIdx := st.readIdx + 1 })
    | .failed e => (.errItem e, { st with readIdx := st.readIdx + 1 })
  else (.terminal, st)

/-- The result of the n-th pull after state `st` (`pullN reads 0 st` is the
next pull). -/
def pullN {E : Type} (reads : Nat → ReadRes E) :
    Nat → IncomingPollSt → PullRes E × IncomingPollSt
  | 0, st => incomingPoll reads st
  | n+1, st => pullN reads n (incomingPoll reads st).2

/-! ### Theorems -/

/-- `setReady` succeeds when every index is in range, and then the result
marks exactly the indices of `idx`. -/
theorem setReady_spec (idx : List Nat) :
    ∀ l : List Bool, (∀ i ∈ idx, i < l.length) →
      setReady l idx =
        some (l.mapIdx (fun j b => b || decide (j ∈ idx))) := by
  induction idx with
  | nil =>
    intro l _
    simp [setReady]
    apply List.ext_getElem
    · simp
    · intro j h1 h2
      simp
  | cons i rest ih =>
    intro l hlt
    have hi : i < l.length := hlt i (by simp)
    rw [setReady, if_pos hi, ih]
    · congr 1
      apply List.ext_getElem
      · simp
      · intro j h1 h2
        simp only [List.getElem_mapIdx, List.getElem_set]
        by_cases hij : i = j
        · subst hij
          simp [List.mem_cons]
        · have hji : ¬ (j = i) := fun h => hij h.symm
          simp [hij, hji]
    · intro j hj
      simpa using hlt j (by simp [hj])

/-- On an all-false initial vector, `setReady` computes `readyFlags`. -/
theorem setReady_replicate (n : Nat) (idx : List Nat)
    (h : ∀ i ∈ idx, i < n) :
    setReady (List.replicate n false) idx = some (readyFlags n idx) := by
  rw [setReady_spec idx (List.replicate n false) (by simpa using h)]
  congr 1
  apply List.ext_getElem
  · simp [readyFlags]
  · intro j h1 h2
    simp [readyFlags, List.getElem_mapIdx]

theorem iterStep_foldl {P W : Type} (wakeFn : W → List (Entry P W)) :
    ∀ (l : List (Bool × P × W)) (a b : List (Entry P W)) (c : List (Ev P W)),
      l.foldl (iterStep wakeFn) (a, b, c) =
        (a ++ ((l.filterMap
            (fun rw => if rw.1 then some rw.2.2 else none)).map wakeFn).flatten,
         b ++ l.filterMap
            (fun rw => if rw.1 then none
                       else some ((some rw.2.1, rw.2.2) : Entry P W)),
         c ++ l.map (fun rw =>
            if rw.1 then Ev.invoke rw.2.2 else Ev.reinsert rw.2.1 rw.2.2)) := by
  intro l
  induction l with
  | nil => intro a b c; simp
  | cons rw rest ih =>
    intro a b c
    match rw with
    | (true, p, w) =>
      simp only [List.foldl_cons, iterStep, ih, List.filterMap_cons, List.map_cons,
        if_pos, List.flatten]
      simp [List.append_assoc]
    | (false, p, w) =>
      simp only [List.foldl_cons, iterStep, ih, List.filterMap_cons, List.map_cons]
      simp [List.append_assoc]

theorem setReady_bound (idx : List Nat) :
    ∀ (l r : List Bool), setReady l idx = some r → ∀ i ∈ idx, i < l.length := by
  induction idx with
  | nil => intro l r _ i hi; cases hi
  | cons j rest ih =>
    intro l r h i hi
    rw [setReady] at h
    by_cases hj : j < l.length
    · rw [if_pos hj] at h
      rcases List.mem_cons.mp hi with hij | hir
      · subst hij; exact hj
      · have := ih (l.set j true) r h i hir
        simpa using this
    · rw [if_neg hj] at h; cases h

/-- Unfolding of a successful `runIteration`: the live list is non-empty, the
indices returned by the query are all in range, and the output is fully
determined by the readiness flags. -/
theorem runIteration_ok {P W : Type} (registry : List (Entry P W))
    (pollRes : List P → List Nat) (wakeFn : W → List (Entry P W))
    (out : IterOut P W)
    (h : runIteration registry pollRes wakeFn = .ok out) :
    liveOf registry ≠ [] ∧
    (∀ i ∈ pollRes ((liveOf registry).map Prod.fst),
        i < (liveOf registry).length) ∧
    out = { trace := Ev.drain registry ::
              Ev.query ((liveOf registry).map Prod.fst) ::
              procTrace (readyFlags (liveOf registry).length
                  (pollRes ((liveOf registry).map Prod.fst))) (liveOf registry),
            registry := keptOf (readyFlags (liveOf registry).length
                  (pollRes ((liveOf registry).map Prod.fst))) (liveOf registry),
            discarded := ((wokenOf (readyFlags (liveOf registry).length
                  (pollRes ((liveOf registry).map Prod.fst)))
                  (liveOf registry)).map wakeFn).flatten } := by
  rw [runIteration] at h
  by_cases hne : (liveOf registry).isEmpty
  · rw [if_pos hne] at h; cases h
  · rw [if_neg hne] at h
    have hlive : liveOf registry ≠ [] := by
      intro hc; rw [hc] at hne; exact hne rfl
    rcases hr : setReady (List.replicate (liveOf registry).length false)
        (pollRes ((liveOf registry).map Prod.fst)) with _ | ready
    · simp only [hr] at h
      exact Except.noConfusion h
    · simp only [hr] at h
      injection h with h
      have hbound := setReady_bound _ _ _ hr
      simp only [List.length_replicate] at hbound
      have hready : ready = readyFlags (liveOf registry).length
          (pollRes ((liveOf registry).map Prod.fst)) := by
        have h2 := setReady_replicate (liveOf registry).length
          (pollRes ((liveOf registry).map Prod.fst)) hbound
        rw [hr] at h2
        exact (Option.some_inj.mp h2)
      refine ⟨hlive, hbound, ?_⟩
      rw [← h]
      subst hready
      rw [iterStep_foldl]
      simp [wokenOf, keptOf, procTrace]

theorem procTrace_countP_query {P W : Type} (flags : List Bool)
    (live : List (P × W)) :
    (procTrace flags live).countP isQueryEv = 0 := by
  rw [procTrace]
  induction flags.zip live with
  | nil => rfl
  | cons rw rest ih =>
    rcases rw with ⟨b, p, w⟩
    cases b <;> simp [List.countP_cons, isQueryEv, ih]

theorem procTrace_invokes {P W : Type} (flags : List Bool)
    (live : List (P × W)) :
    (procTrace flags live).filterMap invokeOf = wokenOf flags live := by
  rw [procTrace, wokenOf]
  induction flags.zip live with
  | nil => rfl
  | cons rw rest ih =>
    rcases rw with ⟨b, p, w⟩
    cases b <;> simp [invokeOf, ih]

/-- C1: for every invocation of `run` whose root future polls `Pending`,
each loop iteration (1) drains the whole pending list (the trace starts with
the drain of the full registry), (2) discards the drained entries whose
shared slot was emptied, (3) issues exactly one batched readiness query,
over exactly the remaining live waitables, (4) invokes the continuation of
every index the query reported ready, and (5) re-inserts exactly the
not-ready entries into the registry for the next iteration — in this
order. -/
theorem runIteration_steps_in_order {P W : Type} (registry : List (Entry P W))
    (pollRes : List P → List Nat) (wakeFn : W → List (Entry P W))
    (out : IterOut P W)
    (h : runIteration registry pollRes wakeFn = .ok out) :
    out.trace = Ev.drain registry ::
        Ev.query ((liveOf registry).map Prod.fst) ::
        procTrace (readyFlags (liveOf registry).length
            (pollRes ((liveOf registry).map Prod.fst))) (liveOf registry) ∧
    out.trace.countP isQueryEv = 1 ∧
    out.trace.filterMap invokeOf =
      wokenOf (readyFlags (liveOf registry).length
          (pollRes ((liveOf registry).map Prod.fst))) (liveOf registry) ∧
    out.registry = keptOf (readyFlags (liveOf registry).length
        (pollRes ((liveOf registry).map Prod.fst))) (liveOf registry) := by
  obtain ⟨-, -, hout⟩ := runIteration_ok registry pollRes wakeFn out h
  subst hout
  refine ⟨rfl, ?_, ?_, rfl⟩
  · simp [List.countP_cons, isQueryEv, procTrace_countP_query]
  · simp [List.filterMap_cons, invokeOf, procTrace_invokes]

theorem runIteration_steps_in_order_witness :
    runIteration [((some 5 : Option Nat), (1 : Nat)), (none, 2), (some 7, 3)]
        (fun _ => [0]) (fun _ => []) =
      .ok ⟨[Ev.drain [(some 5, 1), (none, 2), (some 7, 3)], Ev.query [5, 7],
            Ev.invoke 1, Ev.reinsert 7 3], [(some 7, 3)], []⟩ ∧
    ([Ev.drain [((some 5 : Option Nat), (1 : Nat)), (none, 2), (some 7, 3)],
      Ev.query [5, 7], Ev.invoke 1, Ev.reinsert 7 3]).countP isQueryEv = 1 :=
  ⟨rfl,
   (runIteration_steps_in_order
      [((some 5 : Option Nat), (1 : Nat)), (none, 2), (some 7, 3)]
      (fun _ => [0]) (fun _ => [])
      ⟨[Ev.drain [(some 5, 1), (none, 2), (some 7, 3)], Ev.query [5, 7],
        Ev.invoke 1, Ev.reinsert 7 3], [(some 7, 3)], []⟩ rfl).2.1⟩

theorem runIteration_error_empty_iff {P W : Type} (registry : List (Entry P W))
    (pollRes : List P → List Nat) (wakeFn : W → List (Entry P W)) :
    runIteration registry pollRes wakeFn = .error .emptyWakers ↔
      liveOf registry = [] := by
  constructor
  · intro h
    by_contra hne
    rw [runIteration] at h
    have hne2 : ¬ (liveOf registry).isEmpty := by
      intro hc
      exact hne (List.isEmpty_iff.mp hc)
    rw [if_neg hne2] at h
    rcases hr : setReady (List.replicate (liveOf registry).length false)
        (pollRes ((liveOf registry).map Prod.fst)) with _ | ready
    · simp only [hr] at h
      injection h with h
      exact Panic.noConfusion h
    · simp only [hr] at h
      exact Except.noConfusion h
  · intro h
    rw [runIteration]
    have hemp : (liveOf registry).isEmpty := by rw [h]; rfl
    rw [if_pos hemp]

/-- C2: whenever a poll of the root future returns `Pending` and, after
discarding cancelled entries, zero live registrations remain in the
registry, `run` panics (the `assert!`) instead of continuing the loop; and
the `assert!` never fires while at least one live registration exists. -/
theorem run_pending_zero_live_panics {T P W : Type}
    (poll : Nat → FPoll T × List (Entry P W)) (pollRes : List P → List Nat)
    (wakeFn : W → List (Entry P W)) (fuel n : Nat)
    (registry : List (Entry P W))
    (hpend : (poll n).1 = .pending)
    (hzero : liveOf (registry ++ (poll n).2) = []) :
    runFuel poll pollRes wakeFn (fuel + 1) n registry =
      .error (.panic .emptyWakers) ∧
    ∀ registry' : List (Entry P W), liveOf registry' ≠ [] →
      runIteration registry' pollRes wakeFn ≠ .error .emptyWakers := by
  have hiter : runIteration (registry ++ (poll n).2) pollRes wakeFn =
      .error .emptyWakers :=
    (runIteration_error_empty_iff _ _ _).mpr hzero
  constructor
  · simp only [runFuel, hpend, hiter]
  · intro registry' hlive h'
    exact hlive ((runIteration_error_empty_iff _ _ _).mp h')

theorem run_pending_zero_live_panics_witness :
    runFuel (fun _ => ((FPoll.pending : FPoll Unit), ([] : List (Entry Nat Nat))))
        (fun _ => []) (fun _ => []) 1 0 [(none, 0)] =
      .error (.panic .emptyWakers) :=
  (run_pending_zero_live_panics _ _ (fun _ => []) 0 0 [(none, 0)]
    rfl (by decide)).1

/-- C10: at the end of every `Pending` iteration the registry holds exactly
the not-ready, not-cancelled entries of the batch drained at the start of
that iteration; every registration pushed via `push_waker` or
`push_waker_and_get_token` between the drain and the end-of-iteration
re-insert (e.g. from an invoked continuation) ends up in the list the final
registry assignment overwrites, and the final registry does not depend on
those pushes. -/
theorem runIteration_discards_pushes {P W : Type}
    (registry : List (Entry P W)) (pollRes : List P → List Nat)
    (wakeFn : W → List (Entry P W)) (out : IterOut P W)
    (h : runIteration registry pollRes wakeFn = .ok out) :
    out.registry = keptOf (readyFlags (liveOf registry).length
        (pollRes ((liveOf registry).map Prod.fst))) (liveOf registry) ∧
    out.discarded = ((wokenOf (readyFlags (liveOf registry).length
        (pollRes ((liveOf registry).map Prod.fst)))
        (liveOf registry)).map wakeFn).flatten ∧
    ∀ (wakeFn' : W → List (Entry P W)) (out' : IterOut P W),
      runIteration registry pollRes wakeFn' = .ok out' →
      out'.registry = out.registry := by
  obtain ⟨-, -, hout⟩ := runIteration_ok registry pollRes wakeFn out h
  subst hout
  refine ⟨rfl, rfl, ?_⟩
  intro wakeFn' out' h'
  obtain ⟨-, -, hout'⟩ := runIteration_ok registry pollRes wakeFn' out' h'
  subst hout'
  rfl

theorem runIteration_discards_pushes_witness :
    runIteration [((some 5 : Option Nat), (1 : Nat))] (fun _ => [0])
        (fun _ => [(some 9, 4)]) =
      .ok ⟨[Ev.drain [(some 5, 1)], Ev.query [5], Ev.invoke 1], [],
           [(some 9, 4)]⟩ ∧
    ([] : List (Entry Nat Nat)) =
      keptOf (readyFlags 1 [0]) [(5, 1)] :=
  ⟨rfl,
   ((runIteration_discards_pushes [((some 5 : Option Nat), (1 : Nat))]
      (fun _ => [0]) (fun _ => [(some 9, 4)])
      ⟨[Ev.drain [(some 5, 1)], Ev.query [5], Ev.invoke 1], [],
        [(some 9, 4)]⟩ rfl).1).trans (by decide)⟩

/-- C9 (amended): for a root future whose first poll returns `Ready`, `run`
returns the future's result after exactly one poll; the registry at return
is the initial registry extended by exactly the registrations that single
poll pushed.  (The claim's further conjunct "no live registrations remain at
return" fails: a ready-returning poll may register waitables, e.g. from
abandoned sub-futures of a select — see the counterexample.) -/
theorem runFuel_ready_first_poll {T P W : Type}
    (poll : Nat → FPoll T × List (Entry P W)) (pollRes : List P → List Nat)
    (wakeFn : W → List (Entry P W)) (fuel : Nat)
    (registry : List (Entry P W)) (t : T) (pushed : List (Entry P W))
    (h : poll 0 = (.ready t, pushed)) :
    runFuel poll pollRes wakeFn (fuel + 1) 0 registry =
      .ok ⟨t, 1, registry ++ pushed⟩ := by
  simp only [runFuel, h]

theorem runFuel_ready_first_poll_witness :
    runFuel (fun _ => ((FPoll.ready (), [((some 0 : Option Nat), (0 : Nat))])))
        (fun _ => []) (fun _ => []) 1 0 [] = .ok ⟨(), 1, [(some 0, 0)]⟩ :=
  runFuel_ready_first_poll _ _ _ 0 [] () [(some 0, 0)] rfl

/-- C9 counterexample: a root future whose (single) poll returns `Ready` but
also registers a waitable — as the poll of a `select` whose losing branch
suspended does — leaves a live registration in the registry at the moment
`run` returns, refuting the claim's "no live registrations" conjunct. -/
theorem runFuel_ready_live_cex :
    runFuel (fun _ => ((FPoll.ready (), [((some 0 : Option Nat), (0 : Nat))])))
        (fun _ => []) (fun _ => []) 1 0 [] = .ok ⟨(), 1, [(some 0, 0)]⟩ ∧
    liveOf [((some 0 : Option Nat), (0 : Nat))] ≠ [] :=
  ⟨rfl, by decide⟩

/-- C8: cancelling a registered waitable's token empties the shared slot and
releases (returns for dropping) the waitable; a second cancel — cancelling
the already-cancelled slot again, or the auto-cancel guard dropping after a
cancel — releases nothing: cancellation is idempotent. -/
theorem cancel_idempotent {P : Type} (slots : Nat → Option P)
    (t : CancelToken) (p : P) (h : slots t.slot = some p) :
    (t.cancel slots).2 = some p ∧
    (t.cancel slots).1 t.slot = none ∧
    (t.cancel (t.cancel slots).1).2 = none ∧
    ((CancelOnDropToken.mk t.slot).dropRun (t.cancel slots).1).2 = none := by
  refine ⟨h, ?_, ?_, ?_⟩ <;>
    simp [CancelToken.cancel, CancelOnDropToken.dropRun, slotTake]

theorem cancel_idempotent_witness :
    ((CancelToken.mk 0).cancel (fun _ => (some (0 : Nat)))).2 = some 0 ∧
    ((CancelToken.mk 0).cancel (fun _ => (some (0 : Nat)))).1 0 = none ∧
    ((CancelToken.mk 0).cancel
      (((CancelToken.mk 0).cancel (fun _ => (some (0 : Nat)))).1)).2 = none ∧
    ((CancelOnDropToken.mk 0).dropRun
      (((CancelToken.mk 0).cancel (fun _ => (some (0 : Nat)))).1)).2 = none :=
  cancel_idempotent (fun _ => some 0) ⟨0⟩ 0 rfl

theorem tdCancelPart {P : Type} (ct : Option (Option P)) :
    ∀ e ∈ cancelPart ct, ∃ p, e = TdEv.cancel p := by
  rcases ct with _ | (_ | p)
  · intro e he; cases he
  · intro e he; cases he
  · intro e he
    rw [cancelPart, List.mem_singleton] at he
    exact ⟨p, he⟩

/-- C5: teardown of the outgoing sink and of the incoming source (their
`Drop` impls, which Rust runs on every exit path: normal completion, error
and early abandonment) first releases any outstanding waitable registration
and only then finalizes the resource; the outgoing finalize signals
end-of-body with no trailers; whenever the resource pair is held, the
finalize event is present in the teardown trace. -/
theorem drop_cancel_then_finalize {P S B : Type} (o : OutgoingSt P S B)
    (i : IncomingSt P S B) (sb sb' : S × B)
    (ho : o.stream_and_body = some sb) (hi : i.stream_and_body = some sb') :
    (∃ pre, outgoingDrop o =
        pre ++ [TdEv.dropStream, TdEv.finishOutgoing none] ∧
        ∀ e ∈ pre, ∃ p, e = TdEv.cancel p) ∧
    (∃ pre, incomingDrop i = pre ++ [TdEv.dropStream, TdEv.finishIncoming] ∧
        ∀ e ∈ pre, ∃ p, e = TdEv.cancel p) ∧
    TdEv.finishOutgoing none ∈ outgoingDrop o ∧
    TdEv.finishIncoming ∈ incomingDrop i := by
  have hod : outgoingDrop o =
      cancelPart o.cancel_token ++
        [TdEv.dropStream, TdEv.finishOutgoing none] := by
    rw [outgoingDrop, ho]
  have hid : incomingDrop i =
      cancelPart i.cancel_token ++ [TdEv.dropStream, TdEv.finishIncoming] := by
    rw [incomingDrop, hi]
  refine ⟨⟨_, hod, tdCancelPart o.cancel_token⟩,
          ⟨_, hid, tdCancelPart i.cancel_token⟩, ?_, ?_⟩
  · rw [hod]; simp
  · rw [hid]; simp

theorem drop_cancel_then_finalize_witness :
    TdEv.finishOutgoing none ∈
      outgoingDrop (⟨some ((), ()), some (some 3)⟩ : OutgoingSt Nat Unit Unit) ∧
    TdEv.finishIncoming ∈
      incomingDrop (⟨some ((), ()), some (some 3)⟩ : IncomingSt Nat Unit Unit) :=
  ⟨(drop_cancel_then_finalize ⟨some ((), ()), some (some 3)⟩
      ⟨some ((), ()), some (some 3)⟩ ((), ()) ((), ()) rfl rfl).2.2.1,
   (drop_cancel_then_finalize ⟨some ((), ()), some (some 3)⟩
      ⟨some ((), ()), some (some 3)⟩ ((), ()) ((), ()) rfl rfl).2.2.2⟩

theorem incomingPoll_closed_step {E : Type} (reads : Nat → ReadRes E)
    (st : IncomingPollSt)
    (h : ∀ j, st.readIdx ≤ j → reads j = .closed) :
    (incomingPoll reads st).1 = .terminal ∧
    ∀ j, (incomingPoll reads st).2.readIdx ≤ j → reads j = .closed := by
  rw [incomingPoll]
  by_cases ha : st.alive = true
  · rw [ha, h st.readIdx le_rfl]
    exact ⟨rfl, fun j hj => h j (le_trans (Nat.le_succ _) hj)⟩
  · have ha2 : st.alive = false := by
      cases hb : st.alive
      · rfl
      · exact absurd hb ha
    rw [ha2]
    exact ⟨rfl, fun j hj => h j hj⟩

/-- C6: once the resource has reported ordinary closure on a read (and, per
the wasi stream contract, keeps reporting closure), every subsequent pull of
the incoming source again reports the terminal state: no further chunk and
no error item is ever produced after closure. -/
theorem incoming_terminal_stable {E : Type} (reads : Nat → ReadRes E)
    (st : IncomingPollSt)
    (h : ∀ j, st.readIdx ≤ j → reads j = .closed) :
    ∀ n, (pullN reads n st).1 = .terminal := by
  intro n
  induction n generalizing st with
  | zero => exact (incomingPoll_closed_step reads st h).1
  | succ n ih =>
    rw [pullN]
    exact ih _ (incomingPoll_closed_step reads st h).2

theorem incoming_terminal_stable_witness :
    (pullN (fun _ => (ReadRes.closed : ReadRes Unit)) 2
      ⟨true, false, 0⟩).1 = .terminal :=
  incoming_terminal_stable (fun _ => ReadRes.closed) ⟨true, false, 0⟩
    (fun _ _ => rfl) 2

/-- C7: when the resource reports a transport-level failure distinct from
ordinary closure on a read (and thereafter reports closure, per the wasi
stream contract), the source yields exactly one error item carrying that
failure — never silently ending the stream in its place — and is terminal
on every later pull. -/
theorem incoming_error_once {E : Type} (reads : Nat → ReadRes E)
    (st : IncomingPollSt) (e : E)
    (ha : st.alive = true)
    (hf : reads st.readIdx = .failed e)
    (hc : ∀ j, st.readIdx < j → reads j = .closed) :
    (incomingPoll reads st).1 = .errItem e ∧
    ∀ n, (pullN reads n (incomingPoll reads st).2).1 = .terminal := by
  have h1 : incomingPoll reads st =
      (.errItem e, { st with readIdx := st.readIdx + 1 }) := by
    rw [incomingPoll, ha, hf]
    rfl
  constructor
  · rw [h1]
  · intro n
    rw [h1]
    exact incoming_terminal_stable reads { st with readIdx := st.readIdx + 1 }
      (fun j hj => hc j hj) n

theorem incoming_error_once_witness :
    (incomingPoll (fun j => if j = 0 then ReadRes.failed () else .closed)
      ⟨true, false, 0⟩).1 = .errItem () ∧
    (pullN (fun j => if j = 0 then ReadRes.failed () else .closed) 3
      (incomingPoll (fun j => if j = 0 then ReadRes.failed () else .closed)
        ⟨true, false, 0⟩).2).1 = .terminal :=
  ⟨(incoming_error_once (fun j => if j = 0 then ReadRes.failed () else .closed)
      ⟨true, false, 0⟩ () rfl rfl (fun j hj => if_neg (by omega))).1,
   (incoming_error_once (fun j => if j = 0 then ReadRes.failed () else .closed)
      ⟨true, false, 0⟩ () rfl rfl (fun j hj => if_neg (by omega))).2 3⟩

theorem take_drop_append (l : List Nat) (offset n : Nat) :
    (l.drop offset).take n ++ l.drop (offset + n) = l.drop offset := by
  have h : (l.drop offset).drop n = l.drop (offset + n) := by
    rw [List.drop_drop]
    try rw [Nat.add_comm]
  rw [← h, List.take_append_drop]

/-- Running the chunk loop from any offset against a host that always
reports positive capacity and accepts every write and flush: the chunk
resolves successfully in this single poll, the host accepts exactly the
remaining bytes in order, exactly one flush happens, and the write payloads
follow the spec's min(capacity, remaining) schedule. -/
theorem chunkLoop_pos {E : Type} (H : HostWriter E)
    (hcap : ∀ i, ∃ c, H.check i = .cap (c + 1))
    (hw : ∀ i, H.writeErr i = none)
    (hf : ∀ i, H.flushErr i = none)
    (chunk : List Nat) :
    ∀ (fuel offset : Nat) (log : WriterLog), offset ≤ chunk.length →
      chunk.length - offset + 2 ≤ fuel →
      ∃ lg ws,
        chunkLoop H chunk fuel log offset false =
          some (.done none, lg, chunk.length, true) ∧
        lg.accepted = log.accepted ++ chunk.drop offset ∧
        lg.flushes = log.flushes + 1 ∧
        lg.writesLog = log.writesLog ++ ws ∧
        SpecWrites (capsOf H) chunk log.checks offset ws := by
  intro fuel
  induction fuel with
  | zero => intro offset log hoff hfuel; omega
  | succ fuel ih =>
    intro offset log hoff hfuel
    obtain ⟨c, hc⟩ := hcap log.checks
    by_cases heq : offset = chunk.length
    · subst heq
      obtain ⟨f2, rfl⟩ : ∃ f2, fuel = f2 + 1 := ⟨fuel - 1, by omega⟩
      obtain ⟨c2, hc2⟩ := hcap (log.checks + 1)
      refine ⟨⟨log.checks + 2, log.writes, log.flushes + 1, log.accepted,
          log.writesLog⟩,
        [], ?_, ?_, rfl, ?_, SpecWrites.done log.checks⟩
      · simp only [chunkLoop, hc, hf, hc2, eq_self_iff_true, if_true,
          Bool.false_eq_true, if_false]
      · simp [List.drop_length]
      · simp
    · have hlt : chunk.length - offset ≥ 1 := by
        have := lt_of_le_of_ne hoff heq
        omega
      have hlt2 : offset < chunk.length := lt_of_le_of_ne hoff heq
      set n := min (c + 1) (chunk.length - offset) with hn
      have hn1 : 1 ≤ n := by rw [hn]; omega
      have hnle : offset + n ≤ chunk.length := by rw [hn]; omega
      obtain ⟨lg, ws, hloop, hacc, hflu, hwl, hsw⟩ :=
        ih (offset + n)
          ⟨log.checks + 1, log.writes + 1, log.flushes,
            log.accepted ++ (chunk.drop offset).take n,
            log.writesLog ++ [(chunk.drop offset).take n]⟩
          hnle (by omega)
      refine ⟨lg, (chunk.drop offset).take n :: ws, ?_, ?_, ?_, ?_, ?_⟩
      · simp only [chunkLoop, hc, hw, heq, if_false]
        rw [← hn]
        exact hloop
      · rw [hacc]
        show (log.accepted ++ (chunk.drop offset).take n) ++
            chunk.drop (offset + n) = log.accepted ++ chunk.drop offset
        rw [List.append_assoc, take_drop_append]
      · exact hflu
      · rw [hwl]
        show (log.writesLog ++ [(chunk.drop offset).take n]) ++ ws =
          log.writesLog ++ ((chunk.drop offset).take n :: ws)
        simp
      · have hcap2 : capsOf H log.checks = c + 1 := by rw [capsOf, hc]
        have hx : n = min (capsOf H log.checks) (chunk.length - offset) := by
          rw [hn, hcap2]
        rw [hx] at hsw ⊢
        exact SpecWrites.step log.checks offset ws hlt2 hsw

/-- C3: against a resource that repeatedly reports positive capacity and
accepts every write (of at most that capacity) and every flush: each chunk's
send resolves successfully only once all its bytes are accepted and its
flush observed, with the write payloads following the min(reported capacity,
remaining bytes) schedule from the current offset; over a whole sequence of
chunks, all bytes are written in their original order and exactly one flush
is issued per chunk. -/
theorem sink_chunks_written_in_order {E : Type} (H : HostWriter E)
    (hcap : ∀ i, ∃ c, H.check i = .cap (c + 1))
    (hw : ∀ i, H.writeErr i = none)
    (hf : ∀ i, H.flushErr i = none) (pf lf : Nat) :
    (∀ (chunk : List Nat) (log : WriterLog), chunk.length + 2 ≤ lf →
      ∃ lg ws, sendChunk H chunk (pf + 1) lf log 0 false = some (none, lg) ∧
        lg.accepted = log.accepted ++ chunk ∧
        lg.flushes = log.flushes + 1 ∧
        lg.writesLog = log.writesLog ++ ws ∧
        SpecWrites (capsOf H) chunk log.checks 0 ws) ∧
    (∀ (chunks : List (List Nat)) (log : WriterLog),
      (∀ c ∈ chunks, c.length + 2 ≤ lf) →
      ∃ lg, sendAll H (pf + 1) lf chunks log = some (none, lg) ∧
        lg.accepted = log.accepted ++ chunks.flatten ∧
        lg.flushes = log.flushes + chunks.length) := by
  have hA : ∀ (chunk : List Nat) (log : WriterLog), chunk.length + 2 ≤ lf →
      ∃ lg ws, sendChunk H chunk (pf + 1) lf log 0 false = some (none, lg) ∧
        lg.accepted = log.accepted ++ chunk ∧
        lg.flushes = log.flushes + 1 ∧
        lg.writesLog = log.writesLog ++ ws ∧
        SpecWrites (capsOf H) chunk log.checks 0 ws := by
    intro chunk log hlen
    obtain ⟨lg, ws, hloop, hacc, hflu, hwl, hsw⟩ :=
      chunkLoop_pos H hcap hw hf chunk lf 0 log (Nat.zero_le _) (by omega)
    refine ⟨lg, ws, ?_, by simpa using hacc, hflu, hwl, hsw⟩
    simp only [sendChunk, hloop]
  refine ⟨hA, ?_⟩
  intro chunks
  induction chunks with
  | nil =>
    intro log _
    exact ⟨log, rfl, by simp, by simp⟩
  | cons chunk rest ih =>
    intro log hlen
    obtain ⟨lg1, ws, hsend, hacc1, hflu1, -, -⟩ :=
      hA chunk log (hlen chunk (by simp))
    obtain ⟨lg2, hall, hacc2, hflu2⟩ :=
      ih lg1 (fun c hcm => hlen c (by simp [hcm]))
    refine ⟨lg2, ?_, ?_, ?_⟩
    · simp only [sendAll, hsend]
      exact hall
    · rw [hacc2, hacc1, List.flatten_cons, List.append_assoc]
    · rw [hflu2, hflu1, List.length_cons]
      omega

theorem sink_chunks_written_in_order_witness :
    ∃ lg, sendAll
        (⟨fun _ => .cap 4, fun _ => none, fun _ => none⟩ : HostWriter Unit)
        1 12 [[1, 2, 3, 4, 5, 6], [7, 8]] ⟨0, 0, 0, [], []⟩ =
        some (none, lg) ∧
      lg.accepted = [] ++ [[1, 2, 3, 4, 5, 6], [7, 8]].flatten ∧
      lg.flushes = 0 + 2 :=
  (sink_chunks_written_in_order
    (⟨fun _ => .cap 4, fun _ => none, fun _ => none⟩ : HostWriter Unit)
    (fun _ => ⟨3, rfl⟩) (fun _ => rfl) (fun _ => rfl) 0 12).2
    [[1, 2, 3, 4, 5, 6], [7, 8]] ⟨0, 0, 0, [], []⟩
    (by
      intro c hc
      simp only [List.mem_cons, List.not_mem_nil, or_false] at hc
      rcases hc with rfl | rfl <;> decide)

/-- C4: closed reported by the capacity query at the moment the write offset
equals the chunk length resolves the chunk successfully, identically to a
successful flush; closed reported by the flush (issued only with the offset
at chunk length) also resolves successfully; closed reported by the capacity
query while the offset is strictly below the chunk length resolves the chunk
with that error. -/
theorem chunk_closed_boundary {E : Type} (H : HostWriter E)
    (chunk : List Nat) (fuel : Nat) (log : WriterLog) (offset : Nat)
    (flushing : Bool) :
    (H.check log.checks = .err .closed → offset = chunk.length →
      chunkLoop H chunk (fuel + 1) log offset flushing =
        some (.done none, { log with checks := log.checks + 1 },
          offset, flushing)) ∧
    (H.check log.checks = .err .closed → offset < chunk.length →
      chunkLoop H chunk (fuel + 1) log offset flushing =
        some (.done (some .closed), { log with checks := log.checks + 1 },
          offset, flushing)) ∧
    (∀ c, H.check log.checks = .cap (c + 1) → offset = chunk.length →
      flushing = false → H.flushErr log.flushes = some .closed →
      chunkLoop H chunk (fuel + 1) log offset flushing =
        some (.done none,
          ⟨log.checks + 1, log.writes, log.flushes + 1, log.accepted,
            log.writesLog⟩,
          offset, flushing)) := by
  refine ⟨?_, ?_, ?_⟩
  · intro hc heq
    simp only [chunkLoop, hc, heq, eq_self_iff_true, if_true]
  · intro hc hlt
    have heq : ¬ (offset = chunk.length) := by omega
    simp only [chunkLoop, hc, heq, if_false]
  · intro c hc heq hfl hflush
    subst hfl
    simp only [chunkLoop, hc, heq, eq_self_iff_true, if_true,
      Bool.false_eq_true, if_false, hflush]

theorem chunk_closed_boundary_witness :
    chunkLoop (⟨fun _ => .err .closed, fun _ => none, fun _ => none⟩ :
        HostWriter Unit) [] 1 ⟨0, 0, 0, [], []⟩ 0 false =
      some (.done none, ⟨1, 0, 0, [], []⟩, 0, false) ∧
    chunkLoop (⟨fun _ => .err .closed, fun _ => none, fun _ => none⟩ :
        HostWriter Unit) [9] 1 ⟨0, 0, 0, [], []⟩ 0 false =
      some (.done (some .closed), ⟨1, 0, 0, [], []⟩, 0, false) ∧
    chunkLoop (⟨fun _ => .cap 4, fun _ => none,
        fun _ => some .closed⟩ : HostWriter Unit) [] 1 ⟨0, 0, 0, [], []⟩
        0 false =
      some (.done none, ⟨1, 0, 1, [], []⟩, 0, false) :=
  ⟨(chunk_closed_boundary _ [] 0 ⟨0, 0, 0, [], []⟩ 0 false).1 rfl rfl,
   (chunk_closed_boundary _ [9] 0 ⟨0, 0, 0, [], []⟩ 0 false).2.1 rfl
     (by decide),
   (chunk_closed_boundary _ [] 0 ⟨0, 0, 0, [], []⟩ 0 false).2.2 3 rfl rfl
     rfl rfl⟩

end SpinExec
